import Mathlib

/-!
Verification of the block-sparse shape core of TiledArray
(`src/TiledArray/sparse_shape.h`), specialised to `SparseShape<T>` with the
scalar type modelled by `ℚ` (the source requires a floating-point scalar; we
model its arithmetic exactly, ignoring rounding).

The dense tile container `Tensor<T>`, the `math::*` element-wise kernels, the
tiled-range module, the permutation utility and `GemmHelper` are external
collaborators of the shape core (spec §1 "Out of scope", §6).  They are
modelled here from the spec: a dense N-dimensional tensor is a function from
row-major tile multi-indices to scalars together with its per-dimension
extents; the element-wise kernels apply an operation at every multi-index of
the index space.  Everything in the `SparseShape` namespace is translated
directly from `sparse_shape.h`.

The process-wide zero threshold (`SparseShape<T>::threshold_`, a mutable
static read at call time) is modelled by passing the threshold value `τ`
explicitly to every operation that reads it.
-/

namespace TiledArray

/-- A tile multi-index: one block coordinate per dimension. -/
abbrev Idx := List ℕ

/-- Row-major flattened position of multi-index `is` inside the index space
with extents `es`.  This is the layout used by the dense tile container and
by the flat vectors produced by `recursive_outer_product`. -/
def flatIdx : List ℕ → List ℕ → ℕ
  | _ :: es, i :: is => i * es.prod + flatIdx es is
  | _, _ => 0

/-- Row-major enumeration of every multi-index of the index space with
extents `es` (the iteration order of the dense container). -/
def allIdx : List ℕ → List Idx
  | [] => [[]]
  | e :: es => (List.range e).flatMap (fun i => (allIdx es).map (fun is => i :: is))

/-- `is` is a valid multi-index for extents `es`: same rank, and every
coordinate strictly below the corresponding extent. -/
def ValidIdx (is : Idx) (es : List ℕ) : Prop :=
  List.Forall₂ (· < ·) is es

instance (is : Idx) (es : List ℕ) : Decidable (ValidIdx is es) :=
  inferInstanceAs (Decidable (List.Forall₂ _ _ _))

/-- Flattened outer product of two flat vectors, row-major: the entry at
position `i * r.length + j` is `l[i] * r[j]`.  Models the
`ValArray::outer_fill`/`math::outer` combination step used by
`recursive_outer_product`. -/
def outerFill (l r : List ℚ) : List ℚ :=
  l.flatMap (fun a => r.map (fun b => a * b))

/-- `SparseShape::recursive_outer_product` (sparse_shape.h:77-101): transform
each per-dimension size vector with `op` and combine them into a single flat
outer-product vector, splitting the dimension list at
`middle = (dim >> 1) + (dim & 1)`.  The source never calls it with zero
dimensions; the `[]` case returns the multiplicative unit. -/
def recursive_outer_product (op : List ℚ → List ℚ) : List (List ℚ) → List ℚ
  | [] => [1]
  | [v] => op v
  | v :: w :: rest =>
    let middle : ℕ := (rest.length + 2) / 2 + (rest.length + 2) % 2
    outerFill (recursive_outer_product op ((v :: w :: rest).take middle))
      (recursive_outer_product op ((v :: w :: rest).drop middle))
termination_by vs => vs.length
decreasing_by
  all_goals simp only [List.length_take, List.length_drop, List.length_cons]
  all_goals omega

/-- Unsplit form of the outer-product recursion: a plain right fold of
`outerFill`.  `recursive_outer_product` is proved equal to it below. -/
def foldOuter (vs : List (List ℚ)) : List ℚ :=
  vs.foldr outerFill [1]

/-- Modelled from the spec: the dense tile container (`Tensor<T>`, external
to the shape core) is a dense N-dimensional array of scalars addressed by
tile multi-indices, carried here as its per-dimension extents plus a total
value function on multi-indices (values outside the extents are irrelevant
and every lemma constrains indices with `ValidIdx`). -/
structure NTensor where
  extents : List ℕ
  data : Idx → ℚ

/-- `SparseShape<T>` (sparse_shape.h:54-74): the tile-norm tensor, the shared
per-dimension size vectors (tile extents stored as scalars), and the cached
count of zero tiles. -/
structure SparseShape where
  tile_norms : NTensor
  size_vectors : List (List ℚ)
  zero_tile_count : ℕ

/-- Hard-zero step applied after every operation: a value strictly below the
threshold becomes exactly zero. -/
def thresh (τ v : ℚ) : ℚ := if v < τ then 0 else v

/-- Number of tiles of `t` whose stored value is strictly below `τ` — the
"full re-scan of `tile_norms` against the threshold" of spec §3. -/
def countBelow (τ : ℚ) (t : NTensor) : ℕ :=
  (allIdx t.extents).countP (fun is => decide (t.data is < τ))

/-- Common shape of the element-wise kernels of `sparse_shape.h`: compute a
raw value at every multi-index, hard-zero values strictly below `τ`, and
count the zeroed entries into `zero_tile_count` (the atomic counter of the
source). -/
def elementwise (τ : ℚ) (ext : List ℕ) (svs : List (List ℚ)) (f : Idx → ℚ) :
    SparseShape :=
  ⟨⟨ext, fun is => thresh τ (f is)⟩, svs,
    (allIdx ext).countP (fun is => decide (f is < τ))⟩

/-- The per-dimension size product at `is`, computed the way
`SparseShape::normalize` / `scale_by_size` / `add(value)` do on ranks ≥ 2:
split the size-vector list at `middle`, build the two transformed
outer-product halves with `recursive_outer_product`, and read them at the
row-major positions of the two halves of `is`. -/
def sizeProdAt (op : List ℚ → List ℚ) (svs : List (List ℚ)) (is : Idx) : ℚ :=
  let middle : ℕ := svs.length / 2 + svs.length % 2
  (recursive_outer_product op (svs.take middle)).getD
      (flatIdx ((svs.take middle).map List.length) (is.take middle)) 0 *
  (recursive_outer_product op (svs.drop middle)).getD
      (flatIdx ((svs.drop middle).map List.length) (is.drop middle)) 0

/-- Pre-threshold value computed by `SparseShape::normalize`
(sparse_shape.h:109-162): on rank 1 the norm is divided by the tile size
directly; on higher ranks it is multiplied by the outer product of the
reciprocal size vectors. -/
def normVal (svs : List (List ℚ)) (raw : Idx → ℚ) (is : Idx) : ℚ :=
  if svs.length = 1 then raw is / (svs.getD 0 []).getD (is.getD 0 0) 0
  else raw is * sizeProdAt (fun v => v.map (fun s => 1 / s)) svs is

/-- The initializing constructor `SparseShape(tile_norms, trange)`
(sparse_shape.h:219-227): clone the raw norms and normalize them, counting
the zeroed tiles.  The tiled-range module is external; its per-dimension
tile extents arrive here directly as the size vectors `svs`. -/
def SparseShape.ofTileNorms (τ : ℚ) (tile_norms : NTensor)
    (svs : List (List ℚ)) : SparseShape :=
  elementwise τ tile_norms.extents svs (normVal svs tile_norms.data)

/-- `SparseShape::is_zero` (sparse_shape.h:286-290): compares the stored
norm against the process-wide threshold read at call time. -/
def SparseShape.is_zero (S : SparseShape) (τ : ℚ) (is : Idx) : Bool :=
  decide (S.tile_norms.data is < τ)

/-- `SparseShape::sparsity` (sparse_shape.h:300-303): the cached zero count
divided by the total number of tiles. -/
def SparseShape.sparsity (S : SparseShape) : ℚ :=
  (S.zero_tile_count : ℚ) / (S.tile_norms.extents.prod : ℕ)

/-- Apply a permutation `p` to a positional sequence following the source
convention `result[perm[i]] = arg[i]` (the permutation utility is external;
spec §6).  Equivalently `result[j] = arg[p⁻¹ j]`, realised via `indexOf`. -/
def permApply {α : Type} (p : List ℕ) (d : α) (xs : List α) : List α :=
  (List.range p.length).map (fun j => xs.getD (p.indexOf j) d)

/-- The multi-index of the argument tensor that a permuted tensor reads at
`js`: component `d` of the source-side index is `js[p[d]]`, the inverse of
`new[perm[i]] = old[i]`. -/
def permPreIdx (p : List ℕ) (js : Idx) : Idx :=
  (List.range p.length).map (fun d => js.getD (p.getD d 0) 0)

/-- Modelled from the spec: `Tensor::permute` (external container, spec §6)
fills the permuted tensor by `new[perm[i]] = old[i]` over both extents and
values. -/
def NTensor.permute (p : List ℕ) (t : NTensor) : NTensor :=
  ⟨permApply p 0 t.extents, fun js => t.data (permPreIdx p js)⟩

/-- The inverse of a permutation list: position `j` holds the `i` with
`p[i] = j`. -/
def invPerm (p : List ℕ) : List ℕ :=
  (List.range p.length).map (fun j => p.indexOf j)

/-- `SparseShape::perm_size_vectors` (sparse_shape.h:183-197):
`result[perm[i]] = size_vectors[i]`. -/
def perm_size_vectors (p : List ℕ) (svs : List (List ℚ)) : List (List ℚ) :=
  permApply p [] svs

/-- `SparseShape::perm` (sparse_shape.h:571-574): permute the norm tensor and
the size vectors; `zero_tile_count` is carried over unchanged. -/
def SparseShape.perm (S : SparseShape) (p : List ℕ) : SparseShape :=
  ⟨S.tile_norms.permute p, perm_size_vectors p S.size_vectors, S.zero_tile_count⟩

/-- `SparseShape::scale(factor)` (sparse_shape.h:586-605): multiply every
normalized norm by `|f|`, rethreshold, count the zeroed tiles. -/
def SparseShape.scale (S : SparseShape) (τ f : ℚ) : SparseShape :=
  elementwise τ S.tile_norms.extents S.size_vectors
    (fun is => S.tile_norms.data is * |f|)

/-- `SparseShape::scale(factor, perm)` (sparse_shape.h:618-638). -/
def SparseShape.scaleP (S : SparseShape) (τ f : ℚ) (p : List ℕ) : SparseShape :=
  ⟨⟨permApply p 0 S.tile_norms.extents,
    fun js => thresh τ (S.tile_norms.data (permPreIdx p js) * |f|)⟩,
   perm_size_vectors p S.size_vectors,
   (allIdx S.tile_norms.extents).countP
     (fun is => decide (S.tile_norms.data is * |f| < τ))⟩

/-- `SparseShape::transform(op)` (sparse_shape.h:335-356): apply a
user-supplied operation to the norm tensor, then rethreshold and recount. -/
def SparseShape.transform (S : SparseShape) (τ : ℚ) (op : NTensor → NTensor) :
    SparseShape :=
  elementwise τ (op S.tile_norms).extents S.size_vectors (op S.tile_norms).data

/-- `SparseShape::add(other)` (sparse_shape.h:648-668). -/
def SparseShape.add (S : SparseShape) (τ : ℚ) (other : SparseShape) :
    SparseShape :=
  elementwise τ S.tile_norms.extents S.size_vectors
    (fun is => S.tile_norms.data is + other.tile_norms.data is)

/-- `SparseShape::add(other, perm)` (sparse_shape.h:679-700). -/
def SparseShape.addP (S : SparseShape) (τ : ℚ) (other : SparseShape)
    (p : List ℕ) : SparseShape :=
  ⟨⟨permApply p 0 S.tile_norms.extents,
    fun js => thresh τ (S.tile_norms.data (permPreIdx p js)
      + other.tile_norms.data (permPreIdx p js))⟩,
   perm_size_vectors p S.size_vectors,
   (allIdx S.tile_norms.extents).countP
     (fun is => decide (S.tile_norms.data is + other.tile_norms.data is < τ))⟩

/-- `SparseShape::add(other, factor)` (sparse_shape.h:713-736). -/
def SparseShape.addF (S : SparseShape) (τ : ℚ) (other : SparseShape) (f : ℚ) :
    SparseShape :=
  elementwise τ S.tile_norms.extents S.size_vectors
    (fun is => (S.tile_norms.data is + other.tile_norms.data is) * |f|)

/-- `SparseShape::add(other, factor, perm)` (sparse_shape.h:750-776). -/
def SparseShape.addFP (S : SparseShape) (τ : ℚ) (other : SparseShape) (f : ℚ)
    (p : List ℕ) : SparseShape :=
  ⟨⟨permApply p 0 S.tile_norms.extents,
    fun js => thresh τ ((S.tile_norms.data (permPreIdx p js)
      + other.tile_norms.data (permPreIdx p js)) * |f|)⟩,
   perm_size_vectors p S.size_vectors,
   (allIdx S.tile_norms.extents).countP
     (fun is => decide ((S.tile_norms.data is + other.tile_norms.data is) * |f| < τ))⟩

/-- Reciprocal square-root size factor used by `SparseShape::add(value)`
(sparse_shape.h:778-836): `1/sqrt(size)` directly on rank 1, otherwise the
outer product of the reciprocal-square-root size vectors.  `std::sqrt` is
external to the core and has no exact rational counterpart; it enters as the
function parameter `sq`. -/
def invSqrtFactor (sq : ℚ → ℚ) (svs : List (List ℚ)) (is : Idx) : ℚ :=
  if svs.length = 1 then 1 / sq ((svs.getD 0 []).getD (is.getD 0 0) 0)
  else sizeProdAt (fun v => v.map (fun s => 1 / sq s)) svs is

/-- `SparseShape::add(value)` (sparse_shape.h:778-836): add
`|value| / sqrt(tile volume)` to every normalized norm, rethreshold. -/
def SparseShape.addC (S : SparseShape) (τ : ℚ) (sq : ℚ → ℚ) (c : ℚ) :
    SparseShape :=
  elementwise τ S.tile_norms.extents S.size_vectors
    (fun is => S.tile_norms.data is + |c| * invSqrtFactor sq S.size_vectors is)

/-- `SparseShape::add(value, perm)` (sparse_shape.h:838-842): `add(value)`
followed by `perm`. -/
def SparseShape.addCP (S : SparseShape) (τ : ℚ) (sq : ℚ → ℚ) (c : ℚ)
    (p : List ℕ) : SparseShape :=
  (S.addC τ sq c).perm p

/-- `SparseShape::subt(other)` (sparse_shape.h:844-846). -/
def SparseShape.subt (S : SparseShape) (τ : ℚ) (other : SparseShape) :
    SparseShape :=
  S.add τ other

/-- `SparseShape::subt(other, perm)` (sparse_shape.h:848-850). -/
def SparseShape.subtP (S : SparseShape) (τ : ℚ) (other : SparseShape)
    (p : List ℕ) : SparseShape :=
  S.addP τ other p

/-- `SparseShape::subt(other, factor)` (sparse_shape.h:852-855). -/
def SparseShape.subtF (S : SparseShape) (τ : ℚ) (other : SparseShape) (f : ℚ) :
    SparseShape :=
  S.addF τ other f

/-- `SparseShape::subt(other, factor, perm)` (sparse_shape.h:857-862). -/
def SparseShape.subtFP (S : SparseShape) (τ : ℚ) (other : SparseShape) (f : ℚ)
    (p : List ℕ) : SparseShape :=
  S.addFP τ other f p

/-- `SparseShape::subt(value)` (sparse_shape.h:864-866). -/
def SparseShape.subtC (S : SparseShape) (τ : ℚ) (sq : ℚ → ℚ) (c : ℚ) :
    SparseShape :=
  S.addC τ sq c

/-- `SparseShape::subt(value, perm)` (sparse_shape.h:868-870). -/
def SparseShape.subtCP (S : SparseShape) (τ : ℚ) (sq : ℚ → ℚ) (c : ℚ)
    (p : List ℕ) : SparseShape :=
  S.addCP τ sq c p

/-- Size factor multiplied in by `SparseShape::scale_by_size`
(sparse_shape.h:874-921): the tile size itself on rank 1, otherwise the
outer product of the untouched size vectors at the split positions. -/
def sizeMulAt (svs : List (List ℚ)) (is : Idx) : ℚ :=
  if svs.length = 1 then (svs.getD 0 []).getD (is.getD 0 0) 0
  else sizeProdAt (fun v => v) svs is

/-- `SparseShape::mult(other)` (sparse_shape.h:925-935): element-wise product
of the normalized norms, then `scale_by_size` multiplies the result by the
tile volumes, rethresholds and recounts. -/
def SparseShape.mult (S : SparseShape) (τ : ℚ) (other : SparseShape) :
    SparseShape :=
  elementwise τ S.tile_norms.extents S.size_vectors
    (fun is => S.tile_norms.data is * other.tile_norms.data is
      * sizeMulAt S.size_vectors is)

/-- `SparseShape::mask(mask_shape)` (sparse_shape.h:372-395): hard-zero the
entries whose own value is ≥ τ but whose mask value is < τ, incrementing the
inherited `zero_tile_count`; every other entry is returned unchanged. -/
def SparseShape.mask (S : SparseShape) (τ : ℚ) (m : SparseShape) : SparseShape :=
  ⟨⟨S.tile_norms.extents,
    fun is => if τ ≤ S.tile_norms.data is ∧ m.tile_norms.data is < τ then 0
      else S.tile_norms.data is⟩,
   S.size_vectors,
   S.zero_tile_count + (allIdx S.tile_norms.extents).countP
     (fun is => decide (τ ≤ S.tile_norms.data is ∧ m.tile_norms.data is < τ))⟩

/-- Does `is` lie in the half-open box `[lo, hi)` (per-dimension test over
the rank of `lo`)? -/
def inBlock (lo hi : Idx) (is : Idx) : Bool :=
  (List.range lo.length).all
    (fun d => decide (lo.getD d 0 ≤ is.getD d 0)
      && decide (is.getD d 0 < hi.getD d 0))

/-- `SparseShape::update_block(lower_bound, upper_bound, other)`
(sparse_shape.h:406-429): clone the norms, overwrite the sub-block `[lo,hi)`
with `other`'s norms, and adjust the inherited `zero_tile_count` per cell by
the source's transition rule: `++` when the old value is < τ and the new one
is ≥ τ, `--` when the old value is ≥ τ and the new one is < τ.  The signed
atomic counter is finally stored into the unsigned count field; that
conversion is modelled with `Int.toNat`, which clamps a negative final value
to 0 where the C++ int-to-unsigned conversion would wrap modulo 2^64 —
either way a negative final counter stores something other than the true
zero-tile count. -/
def SparseShape.update_block (S : SparseShape) (τ : ℚ) (lo hi : Idx)
    (other : SparseShape) : SparseShape :=
  let old := S.tile_norms.data
  let nw := fun is => other.tile_norms.data (List.zipWith (fun i l => i - l) is lo)
  ⟨⟨S.tile_norms.extents, fun is => if inBlock lo hi is then nw is else old is⟩,
   S.size_vectors,
   ((S.zero_tile_count : ℤ)
     + ((allIdx S.tile_norms.extents).filter (fun is => inBlock lo hi is)).countP
         (fun is => decide (old is < τ ∧ τ ≤ nw is))
     - ((allIdx S.tile_norms.extents).filter (fun is => inBlock lo hi is)).countP
         (fun is => decide (τ ≤ old is ∧ nw is < τ))).toNat⟩

/-- The sliced size vectors of `SparseShape::block_range`
(sparse_shape.h:438-468): dimension `d` keeps the entries
`[lo[d], hi[d])` of the parent's size vector. -/
def blockSizeVectors (svs : List (List ℚ)) (lo hi : Idx) : List (List ℚ) :=
  (List.range lo.length).map
    (fun d => ((svs.getD d []).drop (lo.getD d 0)).take (hi.getD d 0 - lo.getD d 0))

/-- `SparseShape::block(lower_bound, upper_bound)` (sparse_shape.h:477-501):
copy the sub-block norms verbatim (` result = arg `), counting — but not
zeroing — the entries strictly below the threshold. -/
def SparseShape.block (S : SparseShape) (τ : ℚ) (lo hi : Idx) : SparseShape :=
  let ext := List.zipWith (fun h l => h - l) hi lo
  ⟨⟨ext, fun is => S.tile_norms.data (List.zipWith (· + ·) is lo)⟩,
   blockSizeVectors S.size_vectors lo hi,
   (allIdx ext).countP
     (fun is => decide (S.tile_norms.data (List.zipWith (· + ·) is lo) < τ))⟩

/-- `SparseShape::block(lower_bound, upper_bound, factor)`
(sparse_shape.h:512-540): fused copy+scale of the sub-block; scaled entries
strictly below the threshold are hard-zeroed and counted. -/
def SparseShape.blockF (S : SparseShape) (τ : ℚ) (lo hi : Idx) (f : ℚ) :
    SparseShape :=
  elementwise τ (List.zipWith (fun h l => h - l) hi lo)
    (blockSizeVectors S.size_vectors lo hi)
    (fun is => S.tile_norms.data (List.zipWith (· + ·) is lo) * |f|)

/-- Modelled from the spec: `math::GemmHelper` (external, spec §6) describes
which axes of the two operands are outer (kept) and inner (contracted).  For
the layout `SparseShape::gemm` relies on, the left operand carries its outer
dimensions first and inner dimensions last, and the right operand carries its
inner dimensions first and outer dimensions last. -/
structure GemmHelper where
  leftOuterRank : ℕ
  innerRank : ℕ
  rightOuterRank : ℕ

/-- The pre-threshold value the contraction loop of `SparseShape::gemm`
(sparse_shape.h:1018-1053) assigns at result index `is`: both operands are
first multiplied along their inner axes by `k_sizes` — the
`recursive_outer_product` of the left operand's inner size vectors, read at
the row-major position of the inner multi-index — then contracted by the
generalized matrix product (the external container's `gemm`) scaled by
`|f|`. -/
def gemmCodeVal (L R : SparseShape) (f : ℚ) (gh : GemmHelper) (is : Idx) : ℚ :=
  let kSvs := (L.size_vectors.drop gh.leftOuterRank).take gh.innerRank
  let kExt := kSvs.map List.length
  let ks := recursive_outer_product (fun v => v) kSvs
  |f| * ((allIdx kExt).map (fun k =>
      (L.tile_norms.data (is.take gh.leftOuterRank ++ k)
        * ks.getD (flatIdx kExt k) 0)
      * (R.tile_norms.data (k ++ is.drop gh.leftOuterRank)
        * ks.getD (flatIdx kExt k) 0))).sum

/-- `SparseShape::gemm(other, factor, gemm_helper)` (sparse_shape.h:987-1072):
result size vectors are the left-outer vectors of `this` followed by the
right-outer vectors of `other`; with at least one inner dimension the entries
are the rethresholded values of `gemmCodeVal` and the zeroed entries are
counted; with no inner dimension the result is the `|f|`-scaled outer
product of the operands. -/
def SparseShape.gemm (S : SparseShape) (τ : ℚ) (other : SparseShape) (f : ℚ)
    (gh : GemmHelper) : SparseShape :=
  let resExt := S.tile_norms.extents.take gh.leftOuterRank
      ++ (other.tile_norms.extents.drop gh.innerRank).take gh.rightOuterRank
  let resSvs := S.size_vectors.take gh.leftOuterRank
      ++ (other.size_vectors.drop gh.innerRank).take gh.rightOuterRank
  if gh.innerRank = 0 then
    elementwise τ resExt resSvs
      (fun is => S.tile_norms.data (is.take gh.leftOuterRank)
        * other.tile_norms.data (is.drop gh.leftOuterRank) * |f|)
  else
    elementwise τ resExt resSvs (gemmCodeVal S other f gh)

/-- The tile volume selected by `is`: the product over dimensions of the
size-vector entry at the corresponding coordinate (spec glossary,
"tile volume"). -/
def volAt (svs : List (List ℚ)) (is : Idx) : ℚ :=
  (List.zipWith (fun v i => v.getD i 0) svs is).prod

/-- The contraction value in the words of spec §4.5: `|f|` times the
generalized matrix product over the inner axes of the two operands, each
multiplied along its inner axes by the outer product of the inner-dimension
size vectors of the left operand — the `k_sizes` entry at inner index `k`
written directly as the product of the per-dimension sizes selected by `k`. -/
def gemmSpecVal (L R : SparseShape) (f : ℚ) (gh : GemmHelper) (is : Idx) : ℚ :=
  let kSvs := (L.size_vectors.drop gh.leftOuterRank).take gh.innerRank
  |f| * ((allIdx (kSvs.map List.length)).map (fun k =>
      (L.tile_norms.data (is.take gh.leftOuterRank ++ k) * volAt kSvs k)
      * (R.tile_norms.data (k ++ is.drop gh.leftOuterRank) * volAt kSvs k))).sum

/-- Concrete 1-D shape with unit tile sizes and raw norms [2,0,0,2,2],
built through the public constructor at τ = 1e-6 (normalized norms are the
same values; cached zero count 2). -/
def exampleS_C1 : SparseShape :=
  SparseShape.ofTileNorms (1/1000000)
    ⟨[5], fun is => ([2, 0, 0, 2, 2] : List ℚ).getD (is.getD 0 0) 0⟩
    [[1, 1, 1, 1, 1]]

/-- Concrete 1-D shape with unit tile sizes and raw norms [1,0], built
through the public constructor at τ = 1e-6. -/
def exampleT_C1 : SparseShape :=
  SparseShape.ofTileNorms (1/1000000)
    ⟨[2], fun is => ([1, 0] : List ℚ).getD (is.getD 0 0) 0⟩
    [[1, 1]]

/-- The result of updating the sub-block [1,3) of `exampleS_C1` with
`exampleT_C1` at τ = 1e-6; its norms are [2,1,0,2,2]. -/
def exampleU_C1 : SparseShape :=
  exampleS_C1.update_block (1/1000000) [1] [3] exampleT_C1

/-- Concrete 1-D shape with unit tile sizes and raw norms [5,5], built
through the public constructor at τ = 1e-6 (cached zero count 0). -/
def exampleS_C2 : SparseShape :=
  SparseShape.ofTileNorms (1/1000000)
    ⟨[2], fun is => ([5, 5] : List ℚ).getD (is.getD 0 0) 0⟩
    [[1, 1]]

/-- Concrete 1-D shape with unit tile sizes and raw norms [0,0], built
through the public constructor at τ = 1e-6 (cached zero count 2). -/
def exampleT_C2 : SparseShape :=
  SparseShape.ofTileNorms (1/1000000)
    ⟨[2], fun is => ([0, 0] : List ℚ).getD (is.getD 0 0) 0⟩
    [[1, 1]]

/-- The result of updating the whole index space of `exampleS_C2` with
`exampleT_C2` at τ = 1e-6; its norms are [0,0]. -/
def exampleU_C2 : SparseShape :=
  exampleS_C2.update_block (1/1000000) [0] [2] exampleT_C2

theorem length_outerFill (l r : List ℚ) :
    (outerFill l r).length = l.length * r.length := by
  induction l with
  | nil => simp [outerFill]
  | cons a l ih =>
    simp only [outerFill, List.flatMap_cons] at *
    simp [ih, Nat.succ_mul, Nat.add_comm]

theorem outerFill_one_left (r : List ℚ) : outerFill [1] r = r := by
  simp [outerFill]

theorem outerFill_one_right (l : List ℚ) : outerFill l [1] = l := by
  simp [outerFill]

theorem outerFill_assoc (a b c : List ℚ) :
    outerFill (outerFill a b) c = outerFill a (outerFill b c) := by
  simp only [outerFill, List.flatMap_assoc, List.map_flatMap, List.flatMap_map,
    List.map_map]
  congr 1; funext x; congr 1; funext y; congr 1; funext z
  simp [Function.comp, mul_assoc]

theorem foldOuter_append (xs ys : List (List ℚ)) :
    foldOuter (xs ++ ys) = outerFill (foldOuter xs) (foldOuter ys) := by
  induction xs with
  | nil => simp [foldOuter, outerFill_one_left]
  | cons x xs ih =>
    simp only [foldOuter, List.foldr_cons, List.cons_append] at *
    rw [ih, outerFill_assoc]

/-- The halving split of `recursive_outer_product` computes the same vector
as the plain right fold (spec §4.2: "associativity of multiplication makes
the split-point immaterial to values"). -/
theorem recursive_outer_product_eq_foldOuter (op : List ℚ → List ℚ)
    (vs : List (List ℚ)) :
    recursive_outer_product op vs = foldOuter (vs.map op) := by
  have main : ∀ (n : ℕ) (vs : List (List ℚ)), vs.length ≤ n →
      recursive_outer_product op vs = foldOuter (vs.map op) := by
    intro n
    induction n with
    | zero =>
      intro vs h
      have : vs = [] := List.length_eq_zero.mp (Nat.le_zero.mp h)
      subst this
      simp [recursive_outer_product, foldOuter]
    | succ n ih =>
      intro vs h
      match vs with
      | [] => simp [recursive_outer_product, foldOuter]
      | [v] =>
        simp [recursive_outer_product, foldOuter, outerFill_one_right]
      | v :: w :: rest =>
        rw [recursive_outer_product]
        have hlen : (v :: w :: rest).length = rest.length + 2 := by simp
        set m : ℕ := (rest.length + 2) / 2 + (rest.length + 2) % 2 with hm
        have hm1 : 1 ≤ m := by omega
        have hmlt : m < rest.length + 2 := by omega
        have htake : ((v :: w :: rest).take m).length ≤ n := by
          simp [List.length_take]; omega
        have hdrop : ((v :: w :: rest).drop m).length ≤ n := by
          simp [List.length_drop]; omega
        rw [ih _ htake, ih _ hdrop, ← foldOuter_append, ← List.map_append,
          List.take_append_drop]
  exact main vs.length vs le_rfl

theorem length_foldOuter (vs : List (List ℚ)) :
    (foldOuter vs).length = (vs.map List.length).prod := by
  induction vs with
  | nil => simp [foldOuter]
  | cons v vs ih =>
    simp only [foldOuter, List.foldr_cons, List.map_cons, List.prod_cons] at *
    rw [length_outerFill, ih]

theorem getD_of_lt {α : Type} (l : List α) (n : ℕ) (d : α) (h : n < l.length) :
    l.getD n d = l[n] := by
  simp [List.getD_eq_getElem?_getD, List.getElem?_eq_getElem h]

theorem outerFill_getD (l r : List ℚ) (i j : ℕ)
    (hi : i < l.length) (hj : j < r.length) :
    (outerFill l r).getD (i * r.length + j) 0 = l.getD i 0 * r.getD j 0 := by
  induction l generalizing i with
  | nil => simp at hi
  | cons a l ih =>
    match i with
    | 0 =>
      have hj' : j < (r.map (fun b => a * b)).length := by simpa using hj
      have hlen : (outerFill (a :: l) r) = r.map (fun b => a * b) ++ outerFill l r := by
        simp [outerFill]
      rw [hlen]
      have hj'' : j < (r.map (fun b => a * b) ++ outerFill l r).length := by
        simp only [List.length_append]; omega
      rw [Nat.zero_mul, Nat.zero_add, getD_of_lt _ _ _ hj'',
        List.getElem_append_left hj', List.getElem_map,
        getD_of_lt _ _ _ hj, getD_of_lt _ _ _ hi]
      simp
    | i + 1 =>
      have hi' : i < l.length := by simpa using hi
      have hlen : (outerFill (a :: l) r) = r.map (fun b => a * b) ++ outerFill l r := by
        simp [outerFill]
      have hpos : (i + 1) * r.length + j = r.length + (i * r.length + j) := by ring
      have hsub : i * r.length + j < (outerFill l r).length := by
        rw [length_outerFill]
        calc i * r.length + j < i * r.length + r.length := by omega
        _ = (i + 1) * r.length := by ring
        _ ≤ l.length * r.length := Nat.mul_le_mul_right _ hi'
      have htot : r.length + (i * r.length + j) <
          (r.map (fun b => a * b) ++ outerFill l r).length := by
        simp only [List.length_append, List.length_map]; omega
      rw [hlen, hpos, getD_of_lt _ _ _ htot,
        List.getElem_append_right (by simp only [List.length_map]; omega)]
      simp only [List.length_map, Nat.add_sub_cancel_left]
      rw [← getD_of_lt _ _ _ hsub, ih i hi']
      simp [List.getD_cons_succ]

theorem flatIdx_lt (es : List ℕ) (is : Idx) (h : ValidIdx is es) :
    flatIdx es is < es.prod := by
  induction h with
  | nil => simp [flatIdx]
  | @cons i e is es hie _ ih =>
    simp only [flatIdx, List.prod_cons]
    calc i * es.prod + flatIdx es is < i * es.prod + es.prod := by omega
    _ = (i + 1) * es.prod := by ring
    _ ≤ e * es.prod := Nat.mul_le_mul_right _ hie

/-- Value of the fold-form outer product at the row-major position of a
valid multi-index: the product of the selected per-dimension entries. -/
theorem foldOuter_getD (vs : List (List ℚ)) (is : Idx)
    (h : ValidIdx is (vs.map List.length)) :
    (foldOuter vs).getD (flatIdx (vs.map List.length) is) 0
      = (List.zipWith (fun v i => v.getD i 0) vs is).prod := by
  induction vs generalizing is with
  | nil =>
    cases h
    simp [foldOuter, flatIdx]
  | cons v vs ih =>
    match is, h with
    | i :: is, List.Forall₂.cons hi h' =>
      have hflat : flatIdx (List.map List.length (v :: vs)) (i :: is)
          = i * (foldOuter vs).length + flatIdx (vs.map List.length) is := by
        simp [flatIdx, length_foldOuter]
      have hsub : flatIdx (vs.map List.length) is < (foldOuter vs).length := by
        rw [length_foldOuter]; exact flatIdx_lt _ _ h'
      have hfold : foldOuter (v :: vs) = outerFill v (foldOuter vs) := rfl
      rw [hflat, hfold, outerFill_getD v (foldOuter vs) i _ hi hsub, ih is h']
      simp

/-- `recursive_outer_product` with the identity per-vector transform, read at
the row-major position of a valid multi-index, gives the product of the
selected per-dimension sizes. -/
theorem recursive_outer_product_getD (vs : List (List ℚ)) (is : Idx)
    (h : ValidIdx is (vs.map List.length)) :
    (recursive_outer_product (fun v => v) vs).getD (flatIdx (vs.map List.length) is) 0
      = (List.zipWith (fun v i => v.getD i 0) vs is).prod := by
  rw [recursive_outer_product_eq_foldOuter]
  have hid : vs.map (fun v => v) = vs := by simp
  rw [hid]
  exact foldOuter_getD vs is h

/-- Claim C3: with threshold 1e-6, a 1-D shape with tile extents [2, 3, 5]
and raw norms [4.0, 3.0, 1e-8] normalizes to [2.0, 1.0, 0.0] (raw norm
divided by tile extent, then values strictly below the threshold hard-zeroed),
with `zero_tile_count = 1` and `sparsity() = 1/3`. -/
theorem construction_example_C3 :
    (SparseShape.ofTileNorms (1/1000000)
        ⟨[3], fun is => ([4, 3, 1/100000000] : List ℚ).getD (is.getD 0 0) 0⟩
        [[2, 3, 5]]).tile_norms.data [0] = 2 ∧
    (SparseShape.ofTileNorms (1/1000000)
        ⟨[3], fun is => ([4, 3, 1/100000000] : List ℚ).getD (is.getD 0 0) 0⟩
        [[2, 3, 5]]).tile_norms.data [1] = 1 ∧
    (SparseShape.ofTileNorms (1/1000000)
        ⟨[3], fun is => ([4, 3, 1/100000000] : List ℚ).getD (is.getD 0 0) 0⟩
        [[2, 3, 5]]).tile_norms.data [2] = 0 ∧
    (SparseShape.ofTileNorms (1/1000000)
        ⟨[3], fun is => ([4, 3, 1/100000000] : List ℚ).getD (is.getD 0 0) 0⟩
        [[2, 3, 5]]).zero_tile_count = 1 ∧
    (SparseShape.ofTileNorms (1/1000000)
        ⟨[3], fun is => ([4, 3, 1/100000000] : List ℚ).getD (is.getD 0 0) 0⟩
        [[2, 3, 5]]).sparsity = 1/3 := by
  refine ⟨?_, ?_, ?_, ?_, ?_⟩ <;>
    norm_num [SparseShape.ofTileNorms, SparseShape.sparsity, elementwise,
      normVal, thresh, allIdx, List.countP, List.countP.go, flatIdx,
      List.getD, List.range_succ]

theorem mem_allIdx (es : List ℕ) (is : Idx) : is ∈ allIdx es ↔ ValidIdx is es := by
  induction es generalizing is with
  | nil =>
    simp [allIdx, ValidIdx, List.forall₂_nil_right_iff]
  | cons e es ih =>
    simp only [allIdx, List.mem_flatMap, List.mem_map, List.mem_range]
    constructor
    · rintro ⟨i, hi, is', his', rfl⟩
      exact List.Forall₂.cons hi ((ih is').mp his')
    · intro h
      match is, h with
      | i :: is', List.Forall₂.cons hi h' =>
        exact ⟨i, hi, is', (ih is').mpr h', rfl⟩

theorem getD_map_range {α : Type} (f : ℕ → α) (n j : ℕ) (d : α) (hj : j < n) :
    ((List.range n).map f).getD j d = f j := by
  have h1 : j < ((List.range n).map f).length := by simpa using hj
  rw [getD_of_lt _ _ _ h1, List.getElem_map]
  simp

theorem map_getD_range {α : Type} (xs : List α) (d : α) :
    (List.range xs.length).map (fun i => xs.getD i d) = xs := by
  apply List.ext_getElem
  · simp
  · intro i h1 h2
    simp only [List.getElem_map, List.getElem_range]
    exact getD_of_lt xs i d h2

theorem nodup_indexOf_eq {l : List ℕ} (hn : l.Nodup) {i : ℕ} (hi : i < l.length)
    {a : ℕ} (ha : l[i] = a) : l.indexOf a = i := by
  have hmem : a ∈ l := ha ▸ List.getElem_mem hi
  have hlt : l.indexOf a < l.length := List.indexOf_lt_length.mpr hmem
  have hval : l[l.indexOf a] = a := List.getElem_indexOf hlt
  exact hn.getElem_inj_iff.mp (hval.trans ha.symm)

theorem permList_length {p : List ℕ} {n : ℕ} (hp : p.Perm (List.range n)) :
    p.length = n := by simpa using hp.length_eq

theorem permList_nodup {p : List ℕ} {n : ℕ} (hp : p.Perm (List.range n)) :
    p.Nodup := hp.nodup_iff.mpr (List.nodup_range n)

theorem permList_mem {p : List ℕ} {n : ℕ} (hp : p.Perm (List.range n)) (j : ℕ) :
    j ∈ p ↔ j < n := by rw [hp.mem_iff, List.mem_range]

theorem permList_getD_lt {p : List ℕ} {n : ℕ} (hp : p.Perm (List.range n))
    {i : ℕ} (hi : i < n) : p.getD i 0 < n := by
  have hlen := permList_length hp
  have hi' : i < p.length := by omega
  rw [getD_of_lt _ _ _ hi']
  exact (permList_mem hp _).mp (List.getElem_mem hi')

theorem permList_indexOf_getD {p : List ℕ} {n : ℕ} (hp : p.Perm (List.range n))
    {i : ℕ} (hi : i < n) : p.indexOf (p.getD i 0) = i := by
  have hlen := permList_length hp
  have hi' : i < p.length := by omega
  rw [getD_of_lt _ _ _ hi']
  exact nodup_indexOf_eq (permList_nodup hp) hi' rfl

theorem permList_indexOf_lt {p : List ℕ} {n : ℕ} (hp : p.Perm (List.range n))
    {j : ℕ} (hj : j < n) : p.indexOf j < n := by
  have hlen := permList_length hp
  have h := List.indexOf_lt_length.mpr ((permList_mem hp j).mpr hj)
  omega

theorem permList_getD_indexOf {p : List ℕ} {n : ℕ} (hp : p.Perm (List.range n))
    {j : ℕ} (hj : j < n) : p.getD (p.indexOf j) 0 = j := by
  have h : p.indexOf j < p.length :=
    List.indexOf_lt_length.mpr ((permList_mem hp j).mpr hj)
  rw [getD_of_lt _ _ _ h]
  exact List.getElem_indexOf h

theorem invPerm_length (p : List ℕ) : (invPerm p).length = p.length := by
  simp [invPerm]

theorem invPerm_getD {p : List ℕ} {n : ℕ} (hp : p.Perm (List.range n))
    {j : ℕ} (hj : j < n) : (invPerm p).getD j 0 = p.indexOf j := by
  have hlen := permList_length hp
  have hj' : j < p.length := by omega
  exact getD_map_range (fun j => p.indexOf j) p.length j 0 hj'

theorem invPerm_nodup {p : List ℕ} {n : ℕ} (hp : p.Perm (List.range n)) :
    (invPerm p).Nodup := by
  have hlen := permList_length hp
  refine List.Nodup.map_on ?_ (List.nodup_range p.length)
  intro x hx y hy hxy
  rw [List.mem_range, hlen] at hx hy
  have h1 := permList_getD_indexOf hp hx
  have h2 := permList_getD_indexOf hp hy
  rw [← h1, ← h2, hxy]

theorem invPerm_indexOf {p : List ℕ} {n : ℕ} (hp : p.Perm (List.range n))
    {j : ℕ} (hj : j < n) : (invPerm p).indexOf j = p.getD j 0 := by
  have hlen := permList_length hp
  have hpj : p.getD j 0 < n := permList_getD_lt hp hj
  have hlt : p.getD j 0 < (invPerm p).length := by rw [invPerm_length]; omega
  have hq : (invPerm p)[p.getD j 0] = j := by
    rw [← getD_of_lt _ _ 0 hlt, invPerm_getD hp hpj]
    exact permList_indexOf_getD hp hj
  exact nodup_indexOf_eq (invPerm_nodup hp) hlt hq

theorem permApply_length {α : Type} (p : List ℕ) (d : α) (xs : List α) :
    (permApply p d xs).length = p.length := by simp [permApply]

theorem permApply_getD {α : Type} (p : List ℕ) (d : α) (xs : List α) {j : ℕ}
    (hj : j < p.length) :
    (permApply p d xs).getD j d = xs.getD (p.indexOf j) d :=
  getD_map_range _ _ _ _ hj

theorem permApply_permApply {α : Type} {p : List ℕ} {n : ℕ}
    (hp : p.Perm (List.range n)) (d : α) (xs : List α) (hxs : xs.length = n) :
    permApply (invPerm p) d (permApply p d xs) = xs := by
  have hlen := permList_length hp
  apply List.ext_getElem
  · simp [permApply_length, invPerm_length, hlen, hxs]
  · intro j h1 h2
    have hj : j < n := by rw [hxs] at h2; exact h2
    have hql : j < (invPerm p).length := by rw [invPerm_length]; omega
    have hpj : p.getD j 0 < n := permList_getD_lt hp hj
    rw [← getD_of_lt _ _ d h1, ← getD_of_lt _ _ d h2,
      permApply_getD _ _ _ hql, invPerm_indexOf hp hj,
      permApply_getD _ _ _ (by omega : p.getD j 0 < p.length),
      permList_indexOf_getD hp hj]

theorem permPreIdx_length (p : List ℕ) (js : Idx) :
    (permPreIdx p js).length = p.length := by simp [permPreIdx]

theorem permPreIdx_getD (p : List ℕ) (js : Idx) {d : ℕ} (hd : d < p.length) :
    (permPreIdx p js).getD d 0 = js.getD (p.getD d 0) 0 :=
  getD_map_range _ _ _ _ hd

theorem permPreIdx_permPreIdx {p : List ℕ} {n : ℕ} (hp : p.Perm (List.range n))
    (js : Idx) (hjs : js.length = n) :
    permPreIdx p (permPreIdx (invPerm p) js) = js := by
  have hlen := permList_length hp
  apply List.ext_getElem
  · simp [permPreIdx_length, hlen, hjs]
  · intro d h1 h2
    have hd : d < n := by rw [hjs] at h2; exact h2
    have hpd : p.getD d 0 < n := permList_getD_lt hp hd
    rw [← getD_of_lt _ _ 0 h1, ← getD_of_lt _ _ 0 h2,
      permPreIdx_getD _ _ (by omega : d < p.length),
      permPreIdx_getD _ _ (by rw [invPerm_length]; omega : p.getD d 0 < (invPerm p).length),
      invPerm_getD hp hpd, permList_indexOf_getD hp hd]

/-- Claim C6: every `subt` overload — other shape, with factor, with
permutation, with factor and permutation, scalar, scalar with permutation —
produces exactly the shape the matching `add` overload produces with the
same arguments (equal tile norms, size vectors and zero count), because the
source defines each `subt` as a direct delegation to `add`. -/
theorem subt_alias_add_C6 :
    (∀ (τ : ℚ) (S T : SparseShape), S.subt τ T = S.add τ T) ∧
    (∀ (τ : ℚ) (S T : SparseShape) (p : List ℕ), S.subtP τ T p = S.addP τ T p) ∧
    (∀ (τ f : ℚ) (S T : SparseShape), S.subtF τ T f = S.addF τ T f) ∧
    (∀ (τ f : ℚ) (S T : SparseShape) (p : List ℕ),
      S.subtFP τ T f p = S.addFP τ T f p) ∧
    (∀ (τ c : ℚ) (sq : ℚ → ℚ) (S : SparseShape), S.subtC τ sq c = S.addC τ sq c) ∧
    (∀ (τ c : ℚ) (sq : ℚ → ℚ) (S : SparseShape) (p : List ℕ),
      S.subtCP τ sq c p = S.addCP τ sq c p) :=
  ⟨fun _ _ _ => rfl, fun _ _ _ _ => rfl, fun _ _ _ _ => rfl,
    fun _ _ _ _ _ => rfl, fun _ _ _ _ => rfl, fun _ _ _ _ _ => rfl⟩

/-- Claim C9: `is_zero` compares the stored norm with the process-wide
threshold read at call time (the explicit `τ` argument of the model), so
raising the threshold from `τ` to a `τ'` that overtakes a stored nonzero
norm flips `is_zero` from false to true at that tile — while the shape value
itself, its `tile_norms` and its `zero_tile_count`, is the very same
(`is_zero` is a read-only query on an immutable shape value). -/
theorem is_zero_threshold_C9 (S : SparseShape) (τ τ' : ℚ) (is : Idx)
    (hτ : 0 < τ) (hlow : τ ≤ S.tile_norms.data is)
    (hhigh : S.tile_norms.data is < τ') :
    (∀ σ : ℚ, S.is_zero σ is = decide (S.tile_norms.data is < σ)) ∧
    S.is_zero τ is = false ∧ S.is_zero τ' is = true ∧
    S.tile_norms.data is ≠ 0 := by
  refine ⟨fun σ => rfl, ?_, ?_, ?_⟩
  · simp only [SparseShape.is_zero, decide_eq_false_iff_not, not_lt]
    exact hlow
  · simp only [SparseShape.is_zero, decide_eq_true_eq]
    exact hhigh
  · intro h
    rw [h] at hlow
    linarith

theorem is_zero_threshold_C9_witness :
    (⟨⟨[1], fun _ => 1/2⟩, [[1]], 0⟩ : SparseShape).is_zero (1/4) [0] = false ∧
    (⟨⟨[1], fun _ => 1/2⟩, [[1]], 0⟩ : SparseShape).is_zero 1 [0] = true ∧
    (⟨⟨[1], fun _ => 1/2⟩, [[1]], 0⟩ : SparseShape).tile_norms.data [0] ≠ 0 :=
  (is_zero_threshold_C9 ⟨⟨[1], fun _ => 1/2⟩, [[1]], 0⟩ (1/4) 1 [0]
    (by norm_num) (by show (1:ℚ)/4 ≤ 1/2; norm_num)
    (by show (1:ℚ)/2 < 1; norm_num)).2

/-- Claim C10: `block(lo, hi)` copies the sub-block norms verbatim — every
entry strictly below the current threshold is counted in the result's
`zero_tile_count`, but the copied value itself is not forced to zero —
whereas `block(lo, hi, f)` hard-zeroes every scaled entry strictly below the
threshold.  The final three conjuncts exhibit the contrast concretely: a
stored sub-threshold value 1/2 under τ = 1 is copied as 1/2 (and counted as
a zero tile) by `block` but becomes exactly 0 under `block` with factor 1. -/
theorem block_verbatim_C10 :
    (∀ (S : SparseShape) (τ : ℚ) (lo hi is : Idx),
      (S.block τ lo hi).tile_norms.data is
        = S.tile_norms.data (List.zipWith (· + ·) is lo)) ∧
    (∀ (S : SparseShape) (τ : ℚ) (lo hi : Idx),
      (S.block τ lo hi).zero_tile_count
        = (allIdx (List.zipWith (fun h l => h - l) hi lo)).countP
            (fun is => decide (S.tile_norms.data (List.zipWith (· + ·) is lo) < τ))) ∧
    (∀ (S : SparseShape) (τ f : ℚ) (lo hi is : Idx),
      (S.blockF τ lo hi f).tile_norms.data is
        = thresh τ (S.tile_norms.data (List.zipWith (· + ·) is lo) * |f|)) ∧
    ((⟨⟨[1], fun _ => 1/2⟩, [[1]], 0⟩ : SparseShape).block 1 [0] [1]).tile_norms.data [0]
        = 1/2 ∧
    ((⟨⟨[1], fun _ => 1/2⟩, [[1]], 0⟩ : SparseShape).block 1 [0] [1]).zero_tile_count
        = 1 ∧
    ((⟨⟨[1], fun _ => 1/2⟩, [[1]], 0⟩ : SparseShape).blockF 1 [0] [1] 1).tile_norms.data [0]
        = 0 := by
  refine ⟨fun _ _ _ _ _ => rfl, fun _ _ _ _ => rfl, fun _ _ _ _ _ _ => rfl, ?_, ?_, ?_⟩
  · norm_num [SparseShape.block]
  · norm_num [SparseShape.block, allIdx, List.countP, List.countP.go]
  · norm_num [SparseShape.blockF, elementwise, thresh]

/-- Counterexample to claim C7 as stated: with τ = 1, a shape `S` whose
stored norm at the single tile is 1/2 — so the two operands are not both
≥ τ — masked by `M` with norm 2 yields 1/2 at that tile, not exactly zero:
`mask` copies a sub-threshold own-value verbatim instead of zeroing it. -/
theorem mask_counterexample_C7 :
    ¬ (1 ≤ (⟨⟨[1], fun _ => 1/2⟩, [[1]], 0⟩ : SparseShape).tile_norms.data [0]
        ∧ 1 ≤ (⟨⟨[1], fun _ => 2⟩, [[1]], 0⟩ : SparseShape).tile_norms.data [0]) ∧
    ((⟨⟨[1], fun _ => 1/2⟩, [[1]], 0⟩ : SparseShape).mask 1
        ⟨⟨[1], fun _ => 2⟩, [[1]], 0⟩).tile_norms.data [0] ≠ 0 := by
  constructor
  · rintro ⟨h, -⟩
    norm_num at h
  · norm_num [SparseShape.mask]

/-- Claim C7 amended: for every pair of shapes, the norm of `S.mask(M)` at a
tile is exactly zero when S's norm there is ≥ τ while M's is < τ, and is S's
own norm in every other case (first conjunct, unconditional); in particular
a sub-threshold own-value of S — zero or not — is copied verbatim, never
zeroed (second conjunct, unconditional).  Whenever S additionally satisfies
the written invariant that entries strictly below τ are exactly zero, this
coincides with the claim as stated: the result is S's norm when both
operands are ≥ τ and exactly zero otherwise (last conjunct). -/
theorem mask_C7 (S M : SparseShape) (τ : ℚ) (is : Idx) :
    (S.mask τ M).tile_norms.data is
      = (if τ ≤ S.tile_norms.data is ∧ M.tile_norms.data is < τ then 0
          else S.tile_norms.data is) ∧
    (S.tile_norms.data is < τ →
      (S.mask τ M).tile_norms.data is = S.tile_norms.data is) ∧
    ((S.tile_norms.data is < τ → S.tile_norms.data is = 0) →
      (S.mask τ M).tile_norms.data is
        = (if τ ≤ S.tile_norms.data is ∧ τ ≤ M.tile_norms.data is
            then S.tile_norms.data is else 0)) := by
  refine ⟨rfl, ?_, ?_⟩
  · intro hlt
    show (if τ ≤ S.tile_norms.data is ∧ M.tile_norms.data is < τ then 0
        else S.tile_norms.data is) = S.tile_norms.data is
    rw [if_neg]
    rintro ⟨hge, -⟩
    exact absurd hge (not_le.mpr hlt)
  · intro hS
    show (if τ ≤ S.tile_norms.data is ∧ M.tile_norms.data is < τ then 0
        else S.tile_norms.data is) = _
    split_ifs with h1 h2 h2
    · exact absurd h2.2 (not_le.mpr h1.2)
    · rfl
    · rfl
    · push_neg at h1 h2
      rcases lt_or_le (S.tile_norms.data is) τ with hlt | hge
      · exact hS hlt
      · exact absurd (h1 hge) (not_le.mpr (h2 hge))

theorem mask_C7_witness :
    ((⟨⟨[1], fun _ => 1/2⟩, [[1]], 0⟩ : SparseShape).mask 1
        ⟨⟨[1], fun _ => 2⟩, [[1]], 0⟩).tile_norms.data [0]
      = (if (1:ℚ) ≤ (⟨⟨[1], fun _ => 1/2⟩, [[1]], 0⟩ : SparseShape).tile_norms.data [0]
          ∧ (⟨⟨[1], fun _ => 2⟩, [[1]], 0⟩ : SparseShape).tile_norms.data [0] < 1
          then 0
          else (⟨⟨[1], fun _ => 1/2⟩, [[1]], 0⟩ : SparseShape).tile_norms.data [0]) ∧
    ((⟨⟨[1], fun _ => 1/2⟩, [[1]], 0⟩ : SparseShape).mask 1
        ⟨⟨[1], fun _ => 2⟩, [[1]], 0⟩).tile_norms.data [0]
      = (⟨⟨[1], fun _ => 1/2⟩, [[1]], 0⟩ : SparseShape).tile_norms.data [0] ∧
    ((⟨⟨[1], fun _ => 0⟩, [[1]], 1⟩ : SparseShape).mask 1
        ⟨⟨[1], fun _ => 2⟩, [[1]], 0⟩).tile_norms.data [0]
      = (if (1:ℚ) ≤ (⟨⟨[1], fun _ => 0⟩, [[1]], 1⟩ : SparseShape).tile_norms.data [0]
          ∧ (1:ℚ) ≤ (⟨⟨[1], fun _ => 2⟩, [[1]], 0⟩ : SparseShape).tile_norms.data [0]
          then (⟨⟨[1], fun _ => 0⟩, [[1]], 1⟩ : SparseShape).tile_norms.data [0]
          else 0) :=
  ⟨(mask_C7 ⟨⟨[1], fun _ => 1/2⟩, [[1]], 0⟩ ⟨⟨[1], fun _ => 2⟩, [[1]], 0⟩
      1 [0]).1,
   (mask_C7 ⟨⟨[1], fun _ => 1/2⟩, [[1]], 0⟩ ⟨⟨[1], fun _ => 2⟩, [[1]], 0⟩
      1 [0]).2.1 (by show (1:ℚ)/2 < 1; norm_num),
   (mask_C7 ⟨⟨[1], fun _ => 0⟩, [[1]], 1⟩ ⟨⟨[1], fun _ => 2⟩, [[1]], 0⟩
      1 [0]).2.2 (fun _ => rfl)⟩

set_option maxHeartbeats 2000000 in
/-- Claim C1 fails on this code: `update_block` (sparse_shape.h:406-429)
applies its zero-count transition adjustments with inverted signs — it
increments the count when an old sub-threshold value is overwritten by a
value ≥ τ, and decrements on the opposite transition — so the cached
`zero_tile_count` of its result does not equal the number of tiles on which
`is_zero` holds.  Concretely, with τ = 1e-6: the constructor-built 1-D shape
with unit tile sizes and norms [2,0,0,2,2] (cached count 2), updated on the
sub-block [1,3) with the constructor-built shape [1,0], has result norms
[2,1,0,2,2] — exactly one `is_zero` tile — yet cached `zero_tile_count` 3. -/
theorem update_block_invariant_C1 :
    exampleU_C1.zero_tile_count = 3 ∧
    (allIdx exampleU_C1.tile_norms.extents).countP
      (fun is => exampleU_C1.is_zero (1/1000000) is) = 1 := by
  have hr5 : List.range 5 = [0, 1, 2, 3, 4] := rfl
  have hr1 : List.range 1 = [0] := rfl
  refine ⟨?_, ?_⟩
  · norm_num [exampleU_C1, exampleS_C1, exampleT_C1, SparseShape.ofTileNorms,
      SparseShape.update_block, SparseShape.is_zero, elementwise, normVal,
      thresh, inBlock, allIdx, hr5, hr1, List.countP_cons, List.countP_nil,
      List.filter_cons, List.filter_nil, List.all_cons, List.all_nil,
      List.zipWith_cons_cons]
    rfl
  · norm_num [exampleU_C1, exampleS_C1, exampleT_C1, SparseShape.ofTileNorms,
      SparseShape.update_block, SparseShape.is_zero, elementwise, normVal,
      thresh, inBlock, allIdx, hr5, hr1, List.countP_cons, List.countP_nil,
      List.filter_cons, List.filter_nil, List.all_cons, List.all_nil,
      List.zipWith_cons_cons]

set_option maxHeartbeats 2000000 in
/-- Claim C2 fails on this code: the per-cell `zero_tile_count` maintenance
of `update_block` (sparse_shape.h:417-422) uses the inverted rule `++` when
`old < τ ∧ new ≥ τ` and `--` when `old ≥ τ ∧ new < τ` — the opposite of the
claimed (and intended) adjustment.  Concretely, with τ = 1e-6: updating the
whole of the constructor-built shape [5,5] (cached count 0) with the
constructor-built shape [0,0] makes both cells cross from ≥ τ to < τ; the
claimed rule gives count 0 + 2 = 2, matching the re-scan, while the code
decrements twice and stores 0. -/
theorem update_block_rule_C2 :
    exampleU_C2.zero_tile_count = 0 ∧
    (allIdx exampleU_C2.tile_norms.extents).countP
      (fun is => exampleU_C2.is_zero (1/1000000) is) = 2 := by
  have hr2 : List.range 2 = [0, 1] := rfl
  have hr1 : List.range 1 = [0] := rfl
  constructor <;>
    norm_num [exampleU_C2, exampleS_C2, exampleT_C2, SparseShape.ofTileNorms,
      SparseShape.update_block, SparseShape.is_zero, elementwise, normVal,
      thresh, inBlock, allIdx, hr2, hr1, List.countP_cons, List.countP_nil,
      List.filter_cons, List.filter_nil, List.all_cons, List.all_nil,
      List.zipWith_cons_cons]

/-- Claim C8: for every shape and every permutation `p` of its dimension
indices (applied by `new[perm[i]] = old[i]` to the norm tensor and the
size-vector sequence), `S.perm(p).perm(p⁻¹)` has norm-tensor values
identical to `S`'s at every index of the shape's rank, extents and size
vectors identical to `S`'s, and each `perm` carries `zero_tile_count` over
unchanged. -/
theorem perm_roundtrip_C8 (S : SparseShape) (p : List ℕ)
    (hp : p.Perm (List.range S.tile_norms.extents.length))
    (hsvs : S.size_vectors.length = S.tile_norms.extents.length) :
    (∀ js : Idx, js.length = S.tile_norms.extents.length →
      ((S.perm p).perm (invPerm p)).tile_norms.data js = S.tile_norms.data js) ∧
    ((S.perm p).perm (invPerm p)).tile_norms.extents = S.tile_norms.extents ∧
    ((S.perm p).perm (invPerm p)).size_vectors = S.size_vectors ∧
    (S.perm p).zero_tile_count = S.zero_tile_count ∧
    ((S.perm p).perm (invPerm p)).zero_tile_count = S.zero_tile_count := by
  refine ⟨?_, ?_, ?_, rfl, rfl⟩
  · intro js hjs
    show S.tile_norms.data (permPreIdx p (permPreIdx (invPerm p) js))
        = S.tile_norms.data js
    rw [permPreIdx_permPreIdx hp js hjs]
  · show permApply (invPerm p) 0 (permApply p 0 S.tile_norms.extents)
        = S.tile_norms.extents
    exact permApply_permApply hp 0 _ rfl
  · show permApply (invPerm p) [] (permApply p [] S.size_vectors)
        = S.size_vectors
    exact permApply_permApply hp [] _ hsvs

theorem perm_roundtrip_C8_witness :
    (((⟨⟨[2, 3], fun is => (is.getD 0 0 : ℚ) + 10 * is.getD 1 0⟩,
        [[1, 1], [1, 1, 1]], 0⟩ : SparseShape).perm [1, 0]).perm
          (invPerm [1, 0])).size_vectors
      = ([[1, 1], [1, 1, 1]] : List (List ℚ)) ∧
    (((⟨⟨[2, 3], fun is => (is.getD 0 0 : ℚ) + 10 * is.getD 1 0⟩,
        [[1, 1], [1, 1, 1]], 0⟩ : SparseShape).perm [1, 0]).perm
          (invPerm [1, 0])).tile_norms.extents = [2, 3] ∧
    (((⟨⟨[2, 3], fun is => (is.getD 0 0 : ℚ) + 10 * is.getD 1 0⟩,
        [[1, 1], [1, 1, 1]], 0⟩ : SparseShape).perm [1, 0]).perm
          (invPerm [1, 0])).tile_norms.data [1, 2]
      = (⟨⟨[2, 3], fun is => (is.getD 0 0 : ℚ) + 10 * is.getD 1 0⟩,
        [[1, 1], [1, 1, 1]], 0⟩ : SparseShape).tile_norms.data [1, 2] :=
  ⟨(perm_roundtrip_C8 ⟨⟨[2, 3], fun is => (is.getD 0 0 : ℚ) + 10 * is.getD 1 0⟩,
      [[1, 1], [1, 1, 1]], 0⟩ [1, 0] (by decide) rfl).2.2.1,
   (perm_roundtrip_C8 ⟨⟨[2, 3], fun is => (is.getD 0 0 : ℚ) + 10 * is.getD 1 0⟩,
      [[1, 1], [1, 1, 1]], 0⟩ [1, 0] (by decide) rfl).2.1,
   (perm_roundtrip_C8 ⟨⟨[2, 3], fun is => (is.getD 0 0 : ℚ) + 10 * is.getD 1 0⟩,
      [[1, 1], [1, 1, 1]], 0⟩ [1, 0] (by decide) rfl).1 [1, 2] rfl⟩

/-- The `k_sizes` weight the contraction loop reads at the flattened inner
index is exactly the product of the per-dimension inner sizes, so the code's
pre-threshold value coincides with the spec-side formula. -/
theorem gemmCodeVal_eq_specVal (L R : SparseShape) (f : ℚ) (gh : GemmHelper)
    (is : Idx) : gemmCodeVal L R f gh is = gemmSpecVal L R f gh is := by
  simp only [gemmCodeVal, gemmSpecVal]
  congr 1
  congr 1
  apply List.map_congr_left
  intro k hk
  rw [recursive_outer_product_getD _ _ ((mem_allIdx _ _).mp hk)]
  rfl

/-- Claim C4: with at least one contracted dimension, `gemm` returns a shape
whose size vectors are the left-outer size vectors of `L` followed by the
right-outer size vectors of `R`, and whose norms are obtained by weighting
both operands along their inner axes by the outer product of the
inner-dimension size vectors (`gemmSpecVal` spells that weight as the product
of the per-dimension sizes), contracting them with the `|f|`-scaled
generalized matrix product, and hard-zeroing entries strictly below the
threshold while counting them. -/
theorem gemm_C4 (L R : SparseShape) (τ f : ℚ) (gh : GemmHelper)
    (hk : 0 < gh.innerRank)
    (hRsv : R.size_vectors.length = gh.innerRank + gh.rightOuterRank) :
    (L.gemm τ R f gh).size_vectors
      = L.size_vectors.take gh.leftOuterRank ++ R.size_vectors.drop gh.innerRank ∧
    (∀ is : Idx, (L.gemm τ R f gh).tile_norms.data is
      = thresh τ (gemmSpecVal L R f gh is)) ∧
    (L.gemm τ R f gh).zero_tile_count
      = (allIdx (L.gemm τ R f gh).tile_norms.extents).countP
          (fun is => decide (gemmSpecVal L R f gh is < τ)) := by
  have hne : gh.innerRank ≠ 0 := by omega
  have hdrop : (R.size_vectors.drop gh.innerRank).take gh.rightOuterRank
      = R.size_vectors.drop gh.innerRank := by
    apply List.take_of_length_le
    simp [List.length_drop, hRsv]
  refine ⟨?_, ?_, ?_⟩
  · simp only [SparseShape.gemm, if_neg hne, elementwise, hdrop]
  · intro is
    simp only [SparseShape.gemm, if_neg hne, elementwise]
    rw [gemmCodeVal_eq_specVal]
  · simp only [SparseShape.gemm, if_neg hne, elementwise]
    refine List.countP_congr ?_
    intro is _
    rw [gemmCodeVal_eq_specVal]

theorem gemm_C4_witness :
    ((⟨⟨[2, 2], fun _ => 1⟩, [[1, 1], [1, 1]], 0⟩ : SparseShape).gemm (1/2)
        ⟨⟨[2, 2], fun _ => 1⟩, [[1, 1], [1, 1]], 0⟩ 1 ⟨1, 1, 1⟩).size_vectors
      = ([[1, 1], [1, 1]] : List (List ℚ)).take 1
        ++ ([[1, 1], [1, 1]] : List (List ℚ)).drop 1 ∧
    ((⟨⟨[2, 2], fun _ => 1⟩, [[1, 1], [1, 1]], 0⟩ : SparseShape).gemm (1/2)
        ⟨⟨[2, 2], fun _ => 1⟩, [[1, 1], [1, 1]], 0⟩ 1 ⟨1, 1, 1⟩).tile_norms.data
        [0, 0]
      = thresh (1/2) (gemmSpecVal ⟨⟨[2, 2], fun _ => 1⟩, [[1, 1], [1, 1]], 0⟩
          ⟨⟨[2, 2], fun _ => 1⟩, [[1, 1], [1, 1]], 0⟩ 1 ⟨1, 1, 1⟩ [0, 0]) :=
  ⟨(gemm_C4 ⟨⟨[2, 2], fun _ => 1⟩, [[1, 1], [1, 1]], 0⟩
      ⟨⟨[2, 2], fun _ => 1⟩, [[1, 1], [1, 1]], 0⟩ (1/2) 1 ⟨1, 1, 1⟩
      (by norm_num) rfl).1,
   (gemm_C4 ⟨⟨[2, 2], fun _ => 1⟩, [[1, 1], [1, 1]], 0⟩
      ⟨⟨[2, 2], fun _ => 1⟩, [[1, 1], [1, 1]], 0⟩ (1/2) 1 ⟨1, 1, 1⟩
      (by norm_num) rfl).2.1 [0, 0]⟩

theorem validIdx_take (n : ℕ) {is : Idx} {es : List ℕ} (h : ValidIdx is es) :
    ValidIdx (is.take n) (es.take n) := by
  induction h generalizing n with
  | nil => simp [ValidIdx]
  | @cons i e is es hie h ih =>
    match n with
    | 0 => simp [ValidIdx]
    | n + 1 =>
      simp only [List.take_succ_cons]
      exact List.Forall₂.cons hie (ih n)

theorem validIdx_drop (n : ℕ) {is : Idx} {es : List ℕ} (h : ValidIdx is es) :
    ValidIdx (is.drop n) (es.drop n) := by
  induction h generalizing n with
  | nil => simp [ValidIdx]
  | @cons i e is es hie h ih =>
    match n with
    | 0 => exact List.Forall₂.cons hie h
    | n + 1 =>
      simp only [List.drop_succ_cons]
      exact ih n

theorem volAt_append (svs1 svs2 : List (List ℚ)) (is1 is2 : Idx)
    (h1 : svs1.length = is1.length) :
    volAt (svs1 ++ svs2) (is1 ++ is2) = volAt svs1 is1 * volAt svs2 is2 := by
  unfold volAt
  rw [List.zipWith_append _ _ _ _ _ h1, List.prod_append]

theorem volAt_pos (svs : List (List ℚ)) (is : Idx)
    (hpos : ∀ v ∈ svs, ∀ x ∈ v, 0 < x)
    (h : ValidIdx is (svs.map List.length)) : 0 < volAt svs is := by
  induction svs generalizing is with
  | nil =>
    cases h
    simp [volAt]
  | cons v svs ih =>
    match is, h with
    | i :: is, List.Forall₂.cons hi h' =>
      have hi' : i < v.length := hi
      have hv : 0 < v.getD i 0 := by
        rw [getD_of_lt _ _ _ hi']
        exact hpos v (by simp) _ (List.getElem_mem hi')
      have ht : 0 < volAt svs is :=
        ih is (fun w hw y hy => hpos w (List.mem_cons_of_mem _ hw) y hy) h'
      unfold volAt at ht ⊢
      simp only [List.zipWith_cons_cons, List.prod_cons]
      exact mul_pos hv ht

theorem sizeProdAt_id_eq_volAt (svs : List (List ℚ)) (is : Idx)
    (h : ValidIdx is (svs.map List.length)) :
    sizeProdAt (fun v => v) svs is = volAt svs is := by
  simp only [sizeProdAt]
  set m := svs.length / 2 + svs.length % 2 with hm
  have hvt : ValidIdx (is.take m) ((svs.take m).map List.length) := by
    have ht := validIdx_take m h
    rwa [← List.map_take] at ht
  have hvd : ValidIdx (is.drop m) ((svs.drop m).map List.length) := by
    have hd := validIdx_drop m h
    rwa [← List.map_drop] at hd
  rw [recursive_outer_product_getD _ _ hvt, recursive_outer_product_getD _ _ hvd]
  have hlen : is.length = svs.length := by
    have h2 := List.Forall₂.length_eq h
    simpa using h2
  show volAt (svs.take m) (is.take m) * volAt (svs.drop m) (is.drop m) = volAt svs is
  rw [← volAt_append _ _ _ _ (by simp [List.length_take, hlen]),
    List.take_append_drop, List.take_append_drop]

theorem sizeMulAt_eq_volAt (svs : List (List ℚ)) (is : Idx)
    (h : ValidIdx is (svs.map List.length)) :
    sizeMulAt svs is = volAt svs is := by
  unfold sizeMulAt
  split_ifs with h1
  · obtain ⟨v, rfl⟩ := List.length_eq_one.mp h1
    match is, h with
    | [i], List.Forall₂.cons hi _ =>
      simp [volAt, List.getD]
  · exact sizeProdAt_id_eq_volAt svs is h

theorem zipWith_getD_map (g : ℚ → ℚ) (vs : List (List ℚ)) (is : Idx)
    (h : ValidIdx is (vs.map List.length)) :
    List.zipWith (fun v i => (v.map g).getD i 0) vs is
      = List.zipWith (fun v i => g (v.getD i 0)) vs is := by
  induction vs generalizing is with
  | nil => simp
  | cons v vs ih =>
    match is, h with
    | i :: is, List.Forall₂.cons hi h2 =>
      have hi2 : i < v.length := hi
      simp only [List.zipWith_cons_cons]
      rw [ih is h2]
      congr 1
      rw [getD_of_lt _ _ _ (by simpa using hi2), List.getElem_map,
        getD_of_lt _ _ _ hi2]

/-- `recursive_outer_product` with a per-entry transform `g` of the size
vectors, read at the row-major position of a valid multi-index, gives the
product of the transformed per-dimension sizes. -/
theorem recursive_outer_product_map_getD (g : ℚ → ℚ) (vs : List (List ℚ))
    (is : Idx) (h : ValidIdx is (vs.map List.length)) :
    (recursive_outer_product (fun v => v.map g) vs).getD
        (flatIdx (vs.map List.length) is) 0
      = (List.zipWith (fun v i => g (v.getD i 0)) vs is).prod := by
  rw [recursive_outer_product_eq_foldOuter]
  have hlen : (vs.map (fun v => v.map g)).map List.length
      = vs.map List.length := by
    simp [List.map_map, Function.comp]
  have h2 : ValidIdx is ((vs.map (fun v => v.map g)).map List.length) := by
    rwa [hlen]
  have hf := foldOuter_getD (vs.map (fun v => v.map g)) is h2
  rw [hlen] at hf
  rw [hf, List.zipWith_map_left]
  exact congrArg List.prod (zipWith_getD_map g vs is h)

theorem sizeProdAt_map_eq (g : ℚ → ℚ) (svs : List (List ℚ)) (is : Idx)
    (h : ValidIdx is (svs.map List.length)) :
    sizeProdAt (fun v => v.map g) svs is
      = (List.zipWith (fun v i => g (v.getD i 0)) svs is).prod := by
  simp only [sizeProdAt]
  set m := svs.length / 2 + svs.length % 2 with hm
  have hvt : ValidIdx (is.take m) ((svs.take m).map List.length) := by
    have ht := validIdx_take m h
    rwa [← List.map_take] at ht
  have hvd : ValidIdx (is.drop m) ((svs.drop m).map List.length) := by
    have hd := validIdx_drop m h
    rwa [← List.map_drop] at hd
  rw [recursive_outer_product_map_getD _ _ _ hvt,
    recursive_outer_product_map_getD _ _ _ hvd]
  have hlen : is.length = svs.length := by
    have h2 := List.Forall₂.length_eq h
    simpa using h2
  rw [← List.prod_append,
    ← List.zipWith_append _ _ _ _ _ (by simp [List.length_take, hlen]),
    List.take_append_drop, List.take_append_drop]

/-- The reciprocal-square-root factor of `add(value)` at a valid index is
the product over dimensions of `1 / sqrt(size)`: it scales only the additive
constant, never the stored norms. -/
theorem invSqrtFactor_eq (sq : ℚ → ℚ) (svs : List (List ℚ)) (is : Idx)
    (h : ValidIdx is (svs.map List.length)) :
    invSqrtFactor sq svs is
      = (List.zipWith (fun v i => 1 / sq (v.getD i 0)) svs is).prod := by
  unfold invSqrtFactor
  split_ifs with h1
  · obtain ⟨v, rfl⟩ := List.length_eq_one.mp h1
    match is, h with
    | [i], List.Forall₂.cons hi _ =>
      simp [List.getD]
  · exact sizeProdAt_map_eq (fun s => 1 / sq s) svs is h

/-- Claim C5: the contraction is the one operation that renormalizes.  With
at least one inner dimension and matching, positive inner tile sizes, the
pre-threshold `gemm` value at a valid result index equals `|f|` times the sum
of products of the fully volume-weighted (raw) operand norms, divided by the
result tile volume (first conjunct).  No other algebraic operation divides
the norms by a tile volume: every `add` and `subt` overload, `scale` with
and without permutation, `mask`, `perm`, `block` with and without factor,
`update_block` and `transform` compute each entry from the stored norms
alone with no volume factor; the Hadamard `mult` multiplies by the result
tile volume — undoing one normalization rather than applying one; and the
scalar `add(value)`/`subt(value)` (with and without permutation) scale only
their additive constant by the reciprocal square-root volume, leaving the
stored norm itself unweighted and undivided. -/
theorem gemm_renormalizes_C5 :
    (∀ (L R : SparseShape) (τ f : ℚ) (gh : GemmHelper), 0 < gh.innerRank →
      L.size_vectors.length = gh.leftOuterRank + gh.innerRank →
      R.size_vectors.length = gh.innerRank + gh.rightOuterRank →
      R.size_vectors.take gh.innerRank
        = (L.size_vectors.drop gh.leftOuterRank).take gh.innerRank →
      (∀ v ∈ L.size_vectors, ∀ x ∈ v, 0 < x) →
      (∀ v ∈ R.size_vectors, ∀ x ∈ v, 0 < x) →
      ∀ is : Idx,
      ValidIdx (is.take gh.leftOuterRank)
        ((L.size_vectors.take gh.leftOuterRank).map List.length) →
      ValidIdx (is.drop gh.leftOuterRank)
        ((R.size_vectors.drop gh.innerRank).map List.length) →
      (L.gemm τ R f gh).tile_norms.data is
        = thresh τ (|f|
            * ((allIdx (((L.size_vectors.drop gh.leftOuterRank).take
                  gh.innerRank).map List.length)).map (fun k =>
                (L.tile_norms.data (is.take gh.leftOuterRank ++ k)
                  * volAt L.size_vectors (is.take gh.leftOuterRank ++ k))
                * (R.tile_norms.data (k ++ is.drop gh.leftOuterRank)
                  * volAt R.size_vectors (k ++ is.drop gh.leftOuterRank)))).sum
            / volAt (L.size_vectors.take gh.leftOuterRank
                ++ R.size_vectors.drop gh.innerRank) is)) ∧
    (∀ (S T : SparseShape) (τ : ℚ) (is : Idx),
      (S.add τ T).tile_norms.data is
        = thresh τ (S.tile_norms.data is + T.tile_norms.data is)) ∧
    (∀ (S T : SparseShape) (τ : ℚ) (is : Idx),
      (S.subt τ T).tile_norms.data is
        = thresh τ (S.tile_norms.data is + T.tile_norms.data is)) ∧
    (∀ (S : SparseShape) (τ f : ℚ) (is : Idx),
      (S.scale τ f).tile_norms.data is
        = thresh τ (S.tile_norms.data is * |f|)) ∧
    (∀ (S M : SparseShape) (τ : ℚ) (is : Idx),
      (S.mask τ M).tile_norms.data is
        = (if τ ≤ S.tile_norms.data is ∧ M.tile_norms.data is < τ then 0
            else S.tile_norms.data is)) ∧
    (∀ (S : SparseShape) (p : List ℕ) (js : Idx),
      (S.perm p).tile_norms.data js = S.tile_norms.data (permPreIdx p js)) ∧
    (∀ (S : SparseShape) (τ : ℚ) (lo hi is : Idx),
      (S.block τ lo hi).tile_norms.data is
        = S.tile_norms.data (List.zipWith (· + ·) is lo)) ∧
    (∀ (S T : SparseShape) (τ : ℚ) (lo hi is : Idx),
      (S.update_block τ lo hi T).tile_norms.data is
        = (if inBlock lo hi is
            then T.tile_norms.data (List.zipWith (fun i l => i - l) is lo)
            else S.tile_norms.data is)) ∧
    (∀ (S : SparseShape) (τ : ℚ) (op : NTensor → NTensor) (is : Idx),
      (S.transform τ op).tile_norms.data is
        = thresh τ ((op S.tile_norms).data is)) ∧
    (∀ (S T : SparseShape) (τ : ℚ) (is : Idx),
      ValidIdx is (S.size_vectors.map List.length) →
      (S.mult τ T).tile_norms.data is
        = thresh τ (S.tile_norms.data is * T.tile_norms.data is
            * volAt S.size_vectors is)) ∧
    (∀ (S T : SparseShape) (τ f : ℚ) (is : Idx),
      (S.addF τ T f).tile_norms.data is
        = thresh τ ((S.tile_norms.data is + T.tile_norms.data is) * |f|)) ∧
    (∀ (S T : SparseShape) (τ : ℚ) (p : List ℕ) (js : Idx),
      (S.addP τ T p).tile_norms.data js
        = thresh τ (S.tile_norms.data (permPreIdx p js)
            + T.tile_norms.data (permPreIdx p js))) ∧
    (∀ (S T : SparseShape) (τ f : ℚ) (p : List ℕ) (js : Idx),
      (S.addFP τ T f p).tile_norms.data js
        = thresh τ ((S.tile_norms.data (permPreIdx p js)
            + T.tile_norms.data (permPreIdx p js)) * |f|)) ∧
    (∀ (S : SparseShape) (τ f : ℚ) (p : List ℕ) (js : Idx),
      (S.scaleP τ f p).tile_norms.data js
        = thresh τ (S.tile_norms.data (permPreIdx p js) * |f|)) ∧
    (∀ (S : SparseShape) (τ : ℚ) (lo hi : Idx) (f : ℚ) (is : Idx),
      (S.blockF τ lo hi f).tile_norms.data is
        = thresh τ (S.tile_norms.data (List.zipWith (· + ·) is lo) * |f|)) ∧
    (∀ (S : SparseShape) (τ : ℚ) (sq : ℚ → ℚ) (c : ℚ) (is : Idx),
      ValidIdx is (S.size_vectors.map List.length) →
      (S.addC τ sq c).tile_norms.data is
        = thresh τ (S.tile_norms.data is
            + |c| * (List.zipWith (fun v i => 1 / sq (v.getD i 0))
                S.size_vectors is).prod)) ∧
    (∀ (S : SparseShape) (τ : ℚ) (sq : ℚ → ℚ) (c : ℚ) (p : List ℕ) (js : Idx),
      (S.addCP τ sq c p).tile_norms.data js
        = thresh τ (S.tile_norms.data (permPreIdx p js)
            + |c| * invSqrtFactor sq S.size_vectors (permPreIdx p js))) ∧
    (∀ (S T : SparseShape) (τ f : ℚ) (is : Idx),
      (S.subtF τ T f).tile_norms.data is
        = thresh τ ((S.tile_norms.data is + T.tile_norms.data is) * |f|)) ∧
    (∀ (S T : SparseShape) (τ : ℚ) (p : List ℕ) (js : Idx),
      (S.subtP τ T p).tile_norms.data js
        = thresh τ (S.tile_norms.data (permPreIdx p js)
            + T.tile_norms.data (permPreIdx p js))) ∧
    (∀ (S T : SparseShape) (τ f : ℚ) (p : List ℕ) (js : Idx),
      (S.subtFP τ T f p).tile_norms.data js
        = thresh τ ((S.tile_norms.data (permPreIdx p js)
            + T.tile_norms.data (permPreIdx p js)) * |f|)) ∧
    (∀ (S : SparseShape) (τ : ℚ) (sq : ℚ → ℚ) (c : ℚ) (is : Idx),
      ValidIdx is (S.size_vectors.map List.length) →
      (S.subtC τ sq c).tile_norms.data is
        = thresh τ (S.tile_norms.data is
            + |c| * (List.zipWith (fun v i => 1 / sq (v.getD i 0))
                S.size_vectors is).prod)) ∧
    (∀ (S : SparseShape) (τ : ℚ) (sq : ℚ → ℚ) (c : ℚ) (p : List ℕ) (js : Idx),
      (S.subtCP τ sq c p).tile_norms.data js
        = thresh τ (S.tile_norms.data (permPreIdx p js)
            + |c| * invSqrtFactor sq S.size_vectors (permPreIdx p js))) := by
  refine ⟨?_, fun _ _ _ _ => rfl, fun _ _ _ _ => rfl, fun _ _ _ _ => rfl,
    fun _ _ _ _ => rfl, fun _ _ _ => rfl, fun _ _ _ _ _ => rfl,
    fun _ _ _ _ _ _ => rfl, fun _ _ _ _ => rfl, ?_,
    fun _ _ _ _ _ => rfl, fun _ _ _ _ _ => rfl, fun _ _ _ _ _ _ => rfl,
    fun _ _ _ _ _ => rfl, fun _ _ _ _ _ _ => rfl, ?_,
    fun _ _ _ _ _ _ => rfl, fun _ _ _ _ _ => rfl, fun _ _ _ _ _ => rfl,
    fun _ _ _ _ _ _ => rfl, ?_, fun _ _ _ _ _ _ => rfl⟩
  · intro L R τ f gh hk hLsv hRsv hagree hposL hposR is hvL hvR
    have hne : gh.innerRank ≠ 0 := by omega
    have hdata : (L.gemm τ R f gh).tile_norms.data is
        = thresh τ (gemmCodeVal L R f gh is) := by
      simp only [SparseShape.gemm, if_neg hne, elementwise]
    rw [hdata, gemmCodeVal_eq_specVal]
    congr 1
    have hkSvs : (L.size_vectors.drop gh.leftOuterRank).take gh.innerRank
        = L.size_vectors.drop gh.leftOuterRank := by
      apply List.take_of_length_le
      simp [List.length_drop, hLsv]
    have hloLen : (L.size_vectors.take gh.leftOuterRank).length
        = gh.leftOuterRank := by
      rw [List.length_take, hLsv]; omega
    have hiLlen : (is.take gh.leftOuterRank).length = gh.leftOuterRank := by
      have h := List.Forall₂.length_eq hvL
      rw [List.length_map] at h
      rw [h, hloLen]
    have hRtakeLen : (R.size_vectors.take gh.innerRank).length
        = gh.innerRank := by
      rw [List.length_take, hRsv]; omega
    have hA : 0 < volAt (L.size_vectors.take gh.leftOuterRank)
        (is.take gh.leftOuterRank) := by
      apply volAt_pos
      · intro v hv x hx
        exact hposL v (List.take_subset _ _ hv) x hx
      · exact hvL
    have hB : 0 < volAt (R.size_vectors.drop gh.innerRank)
        (is.drop gh.leftOuterRank) := by
      apply volAt_pos
      · intro v hv x hx
        exact hposR v (List.drop_subset _ _ hv) x hx
      · exact hvR
    have hres : volAt (L.size_vectors.take gh.leftOuterRank
          ++ R.size_vectors.drop gh.innerRank) is
        = volAt (L.size_vectors.take gh.leftOuterRank) (is.take gh.leftOuterRank)
          * volAt (R.size_vectors.drop gh.innerRank)
              (is.drop gh.leftOuterRank) := by
      conv_lhs => rw [← List.take_append_drop gh.leftOuterRank is]
      exact volAt_append _ _ _ _ (by rw [hloLen, hiLlen])
    have hsum : ∀ k ∈ allIdx (((L.size_vectors.drop gh.leftOuterRank).take
          gh.innerRank).map List.length),
        (L.tile_norms.data (is.take gh.leftOuterRank ++ k)
          * volAt L.size_vectors (is.take gh.leftOuterRank ++ k))
        * (R.tile_norms.data (k ++ is.drop gh.leftOuterRank)
          * volAt R.size_vectors (k ++ is.drop gh.leftOuterRank))
        = (volAt (L.size_vectors.take gh.leftOuterRank)
              (is.take gh.leftOuterRank)
            * volAt (R.size_vectors.drop gh.innerRank)
              (is.drop gh.leftOuterRank))
          * ((L.tile_norms.data (is.take gh.leftOuterRank ++ k)
              * volAt ((L.size_vectors.drop gh.leftOuterRank).take
                  gh.innerRank) k)
            * (R.tile_norms.data (k ++ is.drop gh.leftOuterRank)
              * volAt ((L.size_vectors.drop gh.leftOuterRank).take
                  gh.innerRank) k)) := by
      intro k hkmem
      have hvk := (mem_allIdx _ _).mp hkmem
      have hklen : k.length = gh.innerRank := by
        have h := List.Forall₂.length_eq hvk
        rw [List.length_map, hkSvs, List.length_drop, hLsv] at h
        omega
      have h1 : volAt L.size_vectors (is.take gh.leftOuterRank ++ k)
          = volAt (L.size_vectors.take gh.leftOuterRank)
              (is.take gh.leftOuterRank)
            * volAt ((L.size_vectors.drop gh.leftOuterRank).take
                gh.innerRank) k := by
        conv_lhs => rw [← List.take_append_drop gh.leftOuterRank L.size_vectors]
        rw [volAt_append _ _ _ _ (by rw [hloLen, hiLlen]), hkSvs]
      have h2 : volAt R.size_vectors (k ++ is.drop gh.leftOuterRank)
          = volAt ((L.size_vectors.drop gh.leftOuterRank).take gh.innerRank) k
            * volAt (R.size_vectors.drop gh.innerRank)
                (is.drop gh.leftOuterRank) := by
        conv_lhs => rw [← List.take_append_drop gh.innerRank R.size_vectors]
        rw [volAt_append _ _ _ _ (by rw [hRtakeLen, hklen]), hagree]
      rw [h1, h2]
      ring
    simp only [gemmSpecVal]
    rw [hres, List.map_congr_left hsum, List.sum_map_mul_left, mul_div_assoc,
      mul_div_cancel_left₀ _ (mul_pos hA hB).ne']
  · intro S T τ is hv
    show thresh τ (S.tile_norms.data is * T.tile_norms.data is
        * sizeMulAt S.size_vectors is) = _
    rw [sizeMulAt_eq_volAt _ _ hv]
  · intro S τ sq c is hv
    show thresh τ (S.tile_norms.data is
        + |c| * invSqrtFactor sq S.size_vectors is) = _
    rw [invSqrtFactor_eq sq _ _ hv]
  · intro S τ sq c is hv
    show thresh τ (S.tile_norms.data is
        + |c| * invSqrtFactor sq S.size_vectors is) = _
    rw [invSqrtFactor_eq sq _ _ hv]

theorem gemm_renormalizes_C5_witness :
    ((⟨⟨[1, 1], fun _ => 1⟩, [[2], [3]], 0⟩ : SparseShape).gemm (1/1000000)
        ⟨⟨[1, 1], fun _ => 1⟩, [[3], [5]], 0⟩ 1 ⟨1, 1, 1⟩).tile_norms.data [0, 0]
      = thresh (1/1000000) (|(1:ℚ)|
          * ((allIdx [1]).map (fun k =>
              ((1:ℚ) * volAt [[2], [3]] ([0] ++ k))
              * ((1:ℚ) * volAt [[3], [5]] (k ++ [0])))).sum
          / volAt [[2], [5]] [0, 0]) ∧
    ((⟨⟨[2], fun _ => 1⟩, [[4]], 0⟩ : SparseShape).mult (1/1000000)
        ⟨⟨[2], fun _ => 1⟩, [[4]], 0⟩).tile_norms.data [0]
      = thresh (1/1000000) ((1:ℚ) * 1 * volAt [[4]] [0]) ∧
    ((⟨⟨[2], fun _ => 1⟩, [[4]], 0⟩ : SparseShape).addC (1/1000000)
        (fun x => x) 3).tile_norms.data [0]
      = thresh (1/1000000) ((1:ℚ)
          + |(3:ℚ)| * (List.zipWith (fun (v : List ℚ) (i : ℕ) =>
              1 / (fun x : ℚ => x) (v.getD i 0)) [[4]] [0]).prod) :=
  ⟨gemm_renormalizes_C5.1 ⟨⟨[1, 1], fun _ => 1⟩, [[2], [3]], 0⟩
      ⟨⟨[1, 1], fun _ => 1⟩, [[3], [5]], 0⟩ (1/1000000) 1 ⟨1, 1, 1⟩
      (by norm_num) rfl rfl rfl (by decide) (by decide) [0, 0]
      (by decide) (by decide),
   gemm_renormalizes_C5.2.2.2.2.2.2.2.2.2.1 ⟨⟨[2], fun _ => 1⟩, [[4]], 0⟩
      ⟨⟨[2], fun _ => 1⟩, [[4]], 0⟩ (1/1000000) [0] (by decide),
   gemm_renormalizes_C5.2.2.2.2.2.2.2.2.2.2.2.2.2.2.2.1
      ⟨⟨[2], fun _ => 1⟩, [[4]], 0⟩ (1/1000000) (fun x => x) 3 [0]
      (by decide)⟩

end TiledArray
